import Mathlib

/-!
Shallow embedding of `src/dpv/01-arithmetic/arithmetic.py`.

Python integers are embedded as `Int`.  The bit primitives `x & 1`,
`x << 1`, `x >> 1` are, on Python's arbitrary-precision integers,
`x mod 2`, `x * 2` and floor division by 2; `Int`'s `%`/`/` (emod/ediv)
agree with those for the positive constant 2.

The recursive functions (`multpos`, `divnonneg`, `modexp`, `gcd`, `egcd`)
are embedded with an explicit fuel parameter: `none` models both a raised
`ValueError` and a recursion that does not terminate.  The fuel chosen in
each wrapper (`natAbs` of the recursion argument plus one) is proved
sufficient on each function's domain, which is exactly the termination
claim about the Python recursion.
-/

namespace Arith

/-- `even(x)`: `False if x & 1 else True`; `x & 1` is `x` mod 2 in Python's
two's-complement view of negative numbers, which is `Int.emod` by 2. -/
def even (x : Int) : Bool := x % 2 == 0

/-- `double(x) = x << 1`. -/
def double (x : Int) : Int := 2 * x

/-- `halve(x) = x >> 1`: floor division by 2 (ediv by the positive
constant 2 is the floor). -/
def halve (x : Int) : Int := x / 2

/-- `multpos(x, y)`, fuel-indexed.  The Python recursion halves `y`;
for `y < 0` it never reaches the base case (`-1 >> 1 == -1`). -/
def multposFuel : Nat → Int → Int → Option Int
  | 0, _, _ => none
  | fuel + 1, x, y =>
    if y = 0 then some 0
    else (multposFuel fuel x (halve y)).map fun z =>
      if even y then double z else x + double z

/-- `mult(x, y)`: sign dispatch around `multpos`.  The fuel
`y.natAbs + 1` bounds the recursion depth (`multposFuel_correct`). -/
def mult (x y : Int) : Option Int :=
  if x < 0 ∧ 0 ≤ y then (multposFuel (y.natAbs + 1) (-x) y).map fun z => -z
  else if 0 ≤ x ∧ y < 0 then (multposFuel (y.natAbs + 1) x (-y)).map fun z => -z
  else if x < 0 ∧ y < 0 then multposFuel (y.natAbs + 1) (-x) (-y)
  else multposFuel (y.natAbs + 1) x y

/-- `square(x) = mult(x, x)`. -/
def square (x : Int) : Option Int := mult x x

/-- `divnonneg(x, y)`, fuel-indexed; `none` also models the `ValueError`
raised on negative input. -/
def divnonnegFuel : Nat → Int → Int → Option (Int × Int)
  | 0, _, _ => none
  | fuel + 1, x, y =>
    if x < 0 ∨ y < 0 then none
    else if x = 0 then some (0, 0)
    else if y = 0 then some (0, x)
    else (divnonnegFuel fuel (halve x) y).map fun qr =>
      let q := double qr.1
      let r := double qr.2
      let r := if ¬ even x then r + 1 else r
      if r ≥ y then (q + 1, r - y) else (q, r)

/-- `div(x, y)`: signed division built on `divnonneg(max(-x, x), max(y, -y))`;
the four sign branches of the source.  (For `x ≠ 0`, `y ≠ 0` exactly one
branch applies, so the Python fall-through returning `None` is dead.) -/
def div (x y : Int) : Option (Int × Int) :=
  if x = 0 then some (0, 0)
  else if y = 0 then some (0, x)
  else (divnonnegFuel ((max (-x) x).natAbs + 1) (max (-x) x) (max y (-y))).map fun qr =>
    let q := qr.1
    let r := qr.2
    if 0 < x ∧ 0 < y then (q, r)
    else if x < 0 ∧ 0 < y then (if r = 0 then (-q, 0) else (-q - 1, y - r))
    else if 0 < x ∧ y < 0 then (if r = 0 then (-q, 0) else (-q - 1, y + r))
    else (q, -r)

/-- `mod(x, N) = div(x, N)[1]`. -/
def mod (x N : Int) : Option Int := (div x N).map Prod.snd

/-- `quotient(x, N) = div(x, N)[0]`. -/
def quotient (x N : Int) : Option Int := (div x N).map Prod.fst

/-- `modexp(x, y, N)`, fuel-indexed; `none` also models the `ValueError`
raised for `y < 0`. -/
def modexpFuel : Nat → Int → Int → Int → Option Int
  | 0, _, _, _ => none
  | fuel + 1, x, y, N =>
    if y < 0 then none
    else if max N (-N) = 1 then some 0
    else if y = 0 then mod 1 N
    else do
      let z ← modexpFuel fuel x (halve y) N
      let s ← square z
      if even y then mod s N
      else do
        let m ← mult x s
        mod m N

/-- `modexp(x, y, N)` with the sufficient fuel `y.natAbs + 1`. -/
def modexp (x y N : Int) : Option Int := modexpFuel (y.natAbs + 1) x y N

/-- `gcd(a, b)`, fuel-indexed Euclid recursion `gcd(b, mod(a, b))`. -/
def gcdFuel : Nat → Int → Int → Option Int
  | 0, _, _ => none
  | fuel + 1, a, b =>
    if b = 0 then some (max a (-a))
    else do
      let m ← mod a b
      gcdFuel fuel b m

/-- `gcd(a, b)` with the sufficient fuel `b.natAbs + 1`. -/
def gcd (a b : Int) : Option Int := gcdFuel (b.natAbs + 1) a b

/-- `egcd(a, b)`, fuel-indexed: returns `(x, y, d)` with the source's
base case `(-1, 0, -a)` for `a < 0` and recursion through
`egcd(b, mod(a, b))`. -/
def egcdFuel : Nat → Int → Int → Option (Int × Int × Int)
  | 0, _, _ => none
  | fuel + 1, a, b =>
    if b = 0 then
      if a < 0 then some (-1, 0, -a) else some (1, 0, a)
    else do
      let m ← mod a b
      let t ← egcdFuel fuel b m
      let q ← quotient a b
      let p ← mult q t.2.1
      some (t.2.1, t.1 - p, t.2.2)

/-- `egcd(a, b)` with the sufficient fuel `b.natAbs + 1`. -/
def egcd (a b : Int) : Option (Int × Int × Int) := egcdFuel (b.natAbs + 1) a b

/-- `multinv(a, N)`: `none` models the three `ValueError`s. -/
def multinv (a N : Int) : Option Int :=
  if a = 0 then none
  else if N ≤ 1 then none
  else do
    let t ← egcd a N
    if t.2.2 ≠ 1 then none
    else mod t.1 N

/-- The inner `fermat_test(a)`: `modexp(a, N-1, N) == 1`. -/
def fermat_test (N a : Int) : Option Bool := (modexp a (N - 1) N).map fun v => v == 1

/-- `all(fermat_test(ai) for ai in a)`: short-circuiting conjunction of
the Fermat tests. -/
def allTests (N : Int) : List Int → Option Bool
  | [] => some true
  | a :: rest => do
    let b ← fermat_test N a
    if b then allTests N rest else some false

/-- `prime(N, a=witnesses)` for an explicit witness iterable: the list is
filtered only by `ai < N`. -/
def prime (N : Int) (a : List Int) : Option Bool :=
  if N ≤ 0 then some false
  else allTests N (a.filter fun ai => decide (ai < N))

/-- `prime(N)` with `a = None`: the value of `random.sample` is passed in
as the `sample` parameter (the function is deterministic in it). -/
def primeNone (N : Int) (sample : List Int) : Option Bool :=
  if N ≤ 0 then some false
  else allTests N sample

/-- The possible values of `random.sample(range(1, N), k)` after the cap
`if k >= N: k = N - 1`: distinct witnesses from `[1, N)`, exactly
`min k (N-1)` of them. -/
def validSample (N : Int) (k : Nat) (s : List Int) : Prop :=
  s.Nodup ∧ (∀ a ∈ s, 1 ≤ a ∧ a < N) ∧ s.length = min k (N - 1).toNat

/-- `lcm(a, b) = quotient(mult(a, b), gcd(a, b))`. -/
def lcm (a b : Int) : Option Int := do
  let p ← mult a b
  let g ← gcd a b
  quotient p g

/-! ### Correctness of the multiplication routines -/

lemma multposFuel_correct : ∀ (fuel : Nat) (x y : Int), 0 ≤ y → y.natAbs < fuel →
    multposFuel fuel x y = some (x * y)
  | 0, _, _, _, hlt => absurd hlt (Nat.not_lt_zero _)
  | fuel + 1, x, y, hy, hlt => by
    by_cases h0 : y = 0
    · subst h0; simp [multposFuel]
    · have hpos : 0 < y := lt_of_le_of_ne hy (Ne.symm h0)
      have hh : 0 ≤ halve y := by simp only [halve]; omega
      have hdec : (halve y).natAbs < y.natAbs := by simp only [halve]; omega
      have ih := multposFuel_correct fuel x (halve y) hh (by omega)
      simp only [multposFuel, if_neg h0, ih, Option.map_some']
      by_cases he : y % 2 = 0
      · have he2 : even y = true := by simp [even, he]
        have h2y : 2 * (y / 2) = y := by omega
        rw [he2, if_pos rfl]
        simp only [double, halve]
        rw [show 2 * (x * (y / 2)) = x * (2 * (y / 2)) by ring, h2y]
      · have he2 : even y = false := by simp [even, he]
        have h2y : 2 * (y / 2) + 1 = y := by omega
        rw [he2, if_neg (by simp)]
        simp only [double, halve]
        rw [show x + 2 * (x * (y / 2)) = x * (2 * (y / 2) + 1) by ring, h2y]

/-- C7 supporting lemma: `mult` computes the ordinary integer product. -/
lemma mult_eq (x y : Int) : mult x y = some (x * y) := by
  have hfuel : ∀ z : Int, z.natAbs < z.natAbs + 1 := fun z => Nat.lt_succ_self _
  unfold mult
  by_cases h1 : x < 0 ∧ 0 ≤ y
  · rw [if_pos h1, multposFuel_correct _ _ _ h1.2 (hfuel y)]
    simp only [Option.map_some']
    exact congrArg some (by ring)
  · rw [if_neg h1]
    by_cases h2 : 0 ≤ x ∧ y < 0
    · have hny : 0 ≤ -y := by omega
      rw [if_pos h2, show y.natAbs = (-y).natAbs by omega,
        multposFuel_correct _ _ _ hny (hfuel (-y))]
      simp only [Option.map_some']
      exact congrArg some (by ring)
    · rw [if_neg h2]
      by_cases h3 : x < 0 ∧ y < 0
      · have hny : 0 ≤ -y := by omega
        rw [if_pos h3, show y.natAbs = (-y).natAbs by omega,
          multposFuel_correct _ _ _ hny (hfuel (-y))]
        exact congrArg some (by ring)
      · have hy : 0 ≤ y := by omega
        rw [if_neg h3, multposFuel_correct _ _ _ hy (hfuel y)]

lemma square_eq (x : Int) : square x = some (x * x) := mult_eq x x

/-! ### Correctness of the division routines -/

lemma divnonnegFuel_correct : ∀ (fuel : Nat) (x y : Int), 0 ≤ x → 0 < y →
    x.natAbs < fuel → divnonnegFuel fuel x y = some (x / y, x % y)
  | 0, _, _, _, _, hlt => absurd hlt (Nat.not_lt_zero _)
  | fuel + 1, x, y, hx, hy, hlt => by
    have hno : ¬ (x < 0 ∨ y < 0) := by omega
    by_cases hx0 : x = 0
    · subst hx0
      simp [divnonnegFuel, hno]
      omega
    · have hxpos : 0 < x := lt_of_le_of_ne hx (Ne.symm hx0)
      have hy0 : ¬ (y = 0) := by omega
      have hh : 0 ≤ halve x := by simp only [halve]; omega
      have hdec : (halve x).natAbs < x.natAbs := by simp only [halve]; omega
      have ih := divnonnegFuel_correct fuel (halve x) y hh hy (by omega)
      simp only [divnonnegFuel, if_neg hno, if_neg hx0, if_neg hy0, ih, Option.map_some']
      set a := halve x / y with ha
      set b := halve x % y with hb
      have e1 : y * a + b = halve x := Int.ediv_add_emod _ _
      have e2 : 2 * halve x + x % 2 = x := by simp only [halve]; omega
      have hbb : 0 ≤ b ∧ b < y := ⟨Int.emod_nonneg _ hy0, Int.emod_lt_of_pos _ hy⟩
      have hc : 0 ≤ x % 2 ∧ x % 2 < 2 := by omega
      have hxeq : x = 2 * y * a + 2 * b + x % 2 := by linear_combination (-2) * e1 - e2
      by_cases he : x % 2 = 0
      · have he2 : even x = true := by simp [even, he]
        simp only [he2, eq_self_iff_true, not_true, if_false, double]
        by_cases hr : 2 * b ≥ y
        · rw [if_pos hr]
          have key : x / y = 2 * a + 1 ∧ x % y = 2 * b - y :=
            (Int.ediv_emod_unique hy).mpr ⟨by linear_combination -hxeq - he, by omega, by omega⟩
          rw [key.1, key.2]
        · rw [if_neg hr]
          have key : x / y = 2 * a ∧ x % y = 2 * b :=
            (Int.ediv_emod_unique hy).mpr ⟨by linear_combination -hxeq - he, by omega, by omega⟩
          rw [key.1, key.2]
      · have he2 : even x = false := by simp [even, he]
        have he1 : x % 2 = 1 := by omega
        simp only [he2, Bool.false_eq_true, not_false_iff, if_true, double]
        by_cases hr : 2 * b + 1 ≥ y
        · rw [if_pos hr]
          have key : x / y = 2 * a + 1 ∧ x % y = 2 * b + 1 - y :=
            (Int.ediv_emod_unique hy).mpr ⟨by linear_combination -hxeq - he1, by omega, by omega⟩
          rw [key.1, key.2]
        · rw [if_neg hr]
          have key : x / y = 2 * a ∧ x % y = 2 * b + 1 :=
            (Int.ediv_emod_unique hy).mpr ⟨by linear_combination -hxeq - he1, by omega, by omega⟩
          rw [key.1, key.2]

/-- C8 supporting lemma: division by zero returns `(0, x)`. -/
lemma div_zero_eq (x : Int) : div x 0 = some (0, x) := by
  by_cases hx : x = 0
  · subst hx; simp [div]
  · simp [div, hx]

/-- For a positive divisor, `div` computes the (floor) euclidean pair. -/
lemma div_pos_eq (x y : Int) (hy : 0 < y) : div x y = some (x / y, x % y) := by
  have hy0 : ¬ (y = 0) := by omega
  have hmaxy : max y (-y) = y := max_eq_left (by omega)
  by_cases hx0 : x = 0
  · subst hx0; simp [div]
  · rcases lt_or_gt_of_ne (fun h => hx0 h : x ≠ 0) with hx | hx
    · have hmaxx : max (-x) x = -x := max_eq_left (by omega)
      simp only [div, if_neg hx0, if_neg hy0, hmaxx, hmaxy]
      rw [divnonnegFuel_correct _ (-x) y (by omega) hy (Nat.lt_succ_self _)]
      simp only [Option.map_some']
      set a := -x / y with ha
      set b := -x % y with hb
      have e : y * a + b = -x := Int.ediv_add_emod _ _
      have hbb : 0 ≤ b ∧ b < y := ⟨Int.emod_nonneg _ hy0, Int.emod_lt_of_pos _ hy⟩
      rw [if_neg (by omega : ¬ (0 < x ∧ 0 < y)), if_pos (⟨hx, hy⟩ : x < 0 ∧ 0 < y)]
      by_cases hb0 : b = 0
      · rw [if_pos hb0]
        have key : x / y = -a ∧ x % y = 0 :=
          (Int.ediv_emod_unique hy).mpr ⟨by linear_combination -e + hb0, le_refl 0, hy⟩
        rw [key.1, key.2]
      · rw [if_neg hb0]
        have key : x / y = -a - 1 ∧ x % y = y - b :=
          (Int.ediv_emod_unique hy).mpr ⟨by linear_combination -e, by omega, by omega⟩
        rw [key.1, key.2]
    · have hmaxx : max (-x) x = x := max_eq_right (by omega)
      simp only [div, if_neg hx0, if_neg hy0, hmaxx, hmaxy]
      rw [divnonnegFuel_correct _ x y (by omega) hy (Nat.lt_succ_self _)]
      simp only [Option.map_some']
      rw [if_pos (⟨hx, hy⟩ : 0 < x ∧ 0 < y)]

lemma mod_pos_eq (x y : Int) (hy : 0 < y) : mod x y = some (x % y) := by
  rw [mod, div_pos_eq x y hy, Option.map_some']

lemma mod_zero_eq (x : Int) : mod x 0 = some x := by
  rw [mod, div_zero_eq, Option.map_some']

/-- Full sign-aware characterisation of `div`: the quotient/remainder
identity, `|r| < |y|`, and the remainder takes the divisor's sign. -/
lemma div_char (x y : Int) (hy : y ≠ 0) :
    ∃ q r, div x y = some (q, r) ∧ x = y * q + r ∧ r.natAbs < y.natAbs ∧
      (0 < y → 0 ≤ r) ∧ (y < 0 → r ≤ 0) := by
  rcases lt_or_gt_of_ne hy with hyn | hyp
  · -- negative divisor
    have hy0 : ¬ (y = 0) := hy
    have hmaxy : max y (-y) = -y := max_eq_right (by omega)
    by_cases hx0 : x = 0
    · subst hx0
      exact ⟨0, 0, by simp [div], by ring, by omega, fun _ => le_refl 0, fun _ => le_refl 0⟩
    · rcases lt_or_gt_of_ne (fun h => hx0 h : x ≠ 0) with hx | hx
      · -- x < 0, y < 0: branch (q, -r)
        have hmaxx : max (-x) x = -x := max_eq_left (by omega)
        refine ⟨-x / -y, -(-x % -y), ?_, ?_, ?_, ?_, ?_⟩ <;>
          [skip; skip; skip; intro h; intro h]
        · simp only [div, if_neg hx0, if_neg hy0, hmaxx, hmaxy]
          rw [divnonnegFuel_correct _ (-x) (-y) (by omega) (by omega) (Nat.lt_succ_self _)]
          simp only [Option.map_some']
          rw [if_neg (by omega : ¬ (0 < x ∧ 0 < y)), if_neg (by omega : ¬ (x < 0 ∧ 0 < y)),
            if_neg (by omega : ¬ (0 < x ∧ y < 0))]
        · have e : -y * (-x / -y) + -x % -y = -x := Int.ediv_add_emod _ _
          linear_combination e
        · have hbb : 0 ≤ -x % -y ∧ -x % -y < -y :=
            ⟨Int.emod_nonneg _ (by omega), Int.emod_lt_of_pos _ (by omega)⟩
          omega
        · omega
        · have hbb : 0 ≤ -x % -y := Int.emod_nonneg _ (by omega)
          omega
      · -- x > 0, y < 0: branch (-q, 0) / (-q - 1, y + r)
        have hmaxx : max (-x) x = x := max_eq_right (by omega)
        have e : -y * (x / -y) + x % -y = x := Int.ediv_add_emod _ _
        have hbb : 0 ≤ x % -y ∧ x % -y < -y :=
          ⟨Int.emod_nonneg _ (by omega), Int.emod_lt_of_pos _ (by omega)⟩
        have hstep : div x y = some (if x % -y = 0 then (-(x / -y), 0)
            else (-(x / -y) - 1, y + x % -y)) := by
          simp only [div, if_neg hx0, if_neg hy0, hmaxx, hmaxy]
          rw [divnonnegFuel_correct _ x (-y) (by omega) (by omega) (Nat.lt_succ_self _)]
          simp only [Option.map_some']
          rw [if_neg (by omega : ¬ (0 < x ∧ 0 < y)), if_neg (by omega : ¬ (x < 0 ∧ 0 < y)),
            if_pos (⟨hx, hyn⟩ : 0 < x ∧ y < 0)]
        by_cases hb0 : x % -y = 0
        · rw [if_pos hb0] at hstep
          refine ⟨-(x / -y), 0, hstep, by linear_combination -e + hb0, by omega,
            fun _ => le_refl 0, fun _ => le_refl 0⟩
        · rw [if_neg hb0] at hstep
          refine ⟨-(x / -y) - 1, y + x % -y, hstep, by linear_combination -e, by omega,
            fun h => absurd h (by omega), fun _ => by omega⟩
  · -- positive divisor
    refine ⟨x / y, x % y, div_pos_eq x y hyp, (Int.ediv_add_emod x y).symm, ?_,
      fun _ => Int.emod_nonneg _ hy, fun h => absurd h (by omega)⟩
    have hbb : 0 ≤ x % y ∧ x % y < y :=
      ⟨Int.emod_nonneg _ hy, Int.emod_lt_of_pos _ hyp⟩
    omega

/-! ### Correctness of gcd and egcd -/

/-- One Euclid step preserves the (mathematical) gcd. -/
lemma gcd_step (a b q r : Int) (h : a = b * q + r) : Int.gcd b r = Int.gcd a b := by
  have h1 : (↑(Int.gcd b r) : Int) ∣ a := by
    rw [h]; exact dvd_add (Int.gcd_dvd_left.mul_right q) Int.gcd_dvd_right
  have h2 : (↑(Int.gcd b r) : Int) ∣ ↑(Int.gcd a b) := Int.dvd_gcd h1 Int.gcd_dvd_left
  have h3 : (↑(Int.gcd a b) : Int) ∣ r := by
    rw [show r = a - b * q by linear_combination -h]
    exact dvd_sub Int.gcd_dvd_left (Int.gcd_dvd_right.mul_right q)
  have h4 : (↑(Int.gcd a b) : Int) ∣ ↑(Int.gcd b r) := Int.dvd_gcd Int.gcd_dvd_right h3
  exact Nat.dvd_antisymm (Int.natCast_dvd_natCast.mp h2) (Int.natCast_dvd_natCast.mp h4)

lemma gcdFuel_correct : ∀ (fuel : Nat) (a b : Int), b.natAbs < fuel →
    gcdFuel fuel a b = some ↑(Int.gcd a b)
  | 0, _, _, hlt => absurd hlt (Nat.not_lt_zero _)
  | fuel + 1, a, b, hlt => by
    by_cases hb : b = 0
    · subst hb
      simp only [gcdFuel, if_pos rfl]
      exact congrArg some (by rw [Int.gcd_zero_right]; omega)
    · obtain ⟨q, r, hdiv, hid, hlt', _, _⟩ := div_char a b hb
      have hm : mod a b = some r := by rw [mod, hdiv, Option.map_some']
      simp only [gcdFuel, if_neg hb, hm]
      show gcdFuel fuel b r = some ↑(Int.gcd a b)
      rw [gcdFuel_correct fuel b r (by omega), gcd_step a b q r hid]

/-- C3/C4/C5 supporting lemma: the source's `gcd` computes `Int.gcd`. -/
lemma gcd_eq (a b : Int) : gcd a b = some ↑(Int.gcd a b) :=
  gcdFuel_correct _ a b (Nat.lt_succ_self _)

lemma egcdFuel_correct : ∀ (fuel : Nat) (a b : Int), b.natAbs < fuel →
    ∃ x y : Int, egcdFuel fuel a b = some (x, y, ↑(Int.gcd a b)) ∧
      a * x + b * y = ↑(Int.gcd a b)
  | 0, _, _, hlt => absurd hlt (Nat.not_lt_zero _)
  | fuel + 1, a, b, hlt => by
    by_cases hb : b = 0
    · subst hb
      by_cases ha : a < 0
      · refine ⟨-1, 0, ?_, by rw [Int.gcd_zero_right]; ring_nf; omega⟩
        simp only [egcdFuel, if_pos rfl, if_pos ha]
        exact congrArg some (by rw [show (↑(Int.gcd a 0) : Int) = -a by
          rw [Int.gcd_zero_right]; omega])
      · refine ⟨1, 0, ?_, by rw [Int.gcd_zero_right]; ring_nf; omega⟩
        simp only [egcdFuel, if_pos rfl, if_neg ha]
        exact congrArg some (by rw [show (↑(Int.gcd a 0) : Int) = a by
          rw [Int.gcd_zero_right]; omega])
    · obtain ⟨q, r, hdiv, hid, hlt', _, _⟩ := div_char a b hb
      have hm : mod a b = some r := by rw [mod, hdiv, Option.map_some']
      have hq : quotient a b = some q := by rw [quotient, hdiv, Option.map_some']
      obtain ⟨x', y', hrec, hbez⟩ := egcdFuel_correct fuel b r (by omega)
      refine ⟨y', x' - q * y', ?_, by
        rw [← gcd_step a b q r hid]
        linear_combination hbez + y' * hid⟩
      simp only [egcdFuel, if_neg hb, hm, Option.bind_eq_bind, Option.some_bind, hrec, hq,
        mult_eq]
      rw [gcd_step a b q r hid]

/-- The source's `egcd` returns Bezout coefficients for `Int.gcd`. -/
lemma egcd_eq (a b : Int) : ∃ x y : Int,
    egcd a b = some (x, y, ↑(Int.gcd a b)) ∧ a * x + b * y = ↑(Int.gcd a b) :=
  egcdFuel_correct _ a b (Nat.lt_succ_self _)

/-! ### Correctness of modular exponentiation -/

lemma modexpFuel_modulus_zero : ∀ (fuel : Nat) (x y : Int), 0 ≤ y → y.natAbs < fuel →
    modexpFuel fuel x y 0 = some (x ^ y.toNat)
  | 0, _, _, _, hlt => absurd hlt (Nat.not_lt_zero _)
  | fuel + 1, x, y, hy, hlt => by
    have hyn : ¬ (y < 0) := by omega
    have hN : ¬ (max (0 : Int) (-0) = 1) := by norm_num
    by_cases h0 : y = 0
    · subst h0
      simp only [modexpFuel, if_neg hyn, if_neg hN, if_pos rfl, mod_zero_eq]
      rw [Int.toNat_zero, pow_zero]
      exact if_pos trivial
    · have hh : 0 ≤ halve y := by simp only [halve]; omega
      have hdec : (halve y).natAbs < y.natAbs := by simp only [halve]; omega
      have ih := modexpFuel_modulus_zero fuel x (halve y) hh (by omega)
      simp only [modexpFuel, if_neg hyn, if_neg hN, if_neg h0, ih, Option.bind_eq_bind,
        Option.some_bind, square_eq]
      set z := x ^ (halve y).toNat with hz
      by_cases he : y % 2 = 0
      · have he2 : even y = true := by simp [even, he]
        have hmm : (halve y).toNat + (halve y).toNat = y.toNat := by simp only [halve]; omega
        rw [he2, if_pos rfl, mod_zero_eq]
        exact congrArg some (by rw [← hmm, pow_add])
      · have he2 : even y = false := by simp [even, he]
        have hmm : (halve y).toNat + (halve y).toNat + 1 = y.toNat := by
          simp only [halve]; omega
        rw [he2, if_neg (by simp), mult_eq, Option.some_bind, mod_zero_eq]
        refine congrArg some ?_
        rw [← hmm, pow_add, pow_add, pow_one, hz]
        ring

lemma modexpFuel_modulus_pos : ∀ (fuel : Nat) (x y N : Int), 0 ≤ y → 1 < N →
    y.natAbs < fuel → modexpFuel fuel x y N = some (x ^ y.toNat % N)
  | 0, _, _, _, _, _, hlt => absurd hlt (Nat.not_lt_zero _)
  | fuel + 1, x, y, N, hy, hN, hlt => by
    have hyn : ¬ (y < 0) := by omega
    have hN1 : ¬ (max N (-N) = 1) := by rw [max_eq_left (by omega : -N ≤ N)]; omega
    have hNpos : 0 < N := by omega
    by_cases h0 : y = 0
    · subst h0
      simp only [modexpFuel, if_neg hyn, if_neg hN1, if_pos rfl, mod_pos_eq _ _ hNpos]
      rw [Int.toNat_zero, pow_zero]
      exact if_pos trivial
    · have hh : 0 ≤ halve y := by simp only [halve]; omega
      have hdec : (halve y).natAbs < y.natAbs := by simp only [halve]; omega
      have ih := modexpFuel_modulus_pos fuel x (halve y) N hh hN (by omega)
      simp only [modexpFuel, if_neg hyn, if_neg hN1, if_neg h0, ih, Option.bind_eq_bind,
        Option.some_bind, square_eq]
      set m := (halve y).toNat with hm
      by_cases he : y % 2 = 0
      · have he2 : even y = true := by simp [even, he]
        have hmm : m + m = y.toNat := by simp only [hm, halve]; omega
        rw [he2, if_pos rfl, mod_pos_eq _ _ hNpos]
        refine congrArg some ?_
        rw [← Int.mul_emod, ← pow_add, hmm]
      · have he2 : even y = false := by simp [even, he]
        have hmm : m + m + 1 = y.toNat := by simp only [hm, halve]; omega
        rw [he2, if_neg (by simp), mult_eq, Option.some_bind, mod_pos_eq _ _ hNpos]
        refine congrArg some ?_
        have hzz : x ^ m % N * (x ^ m % N) % N = x ^ m * x ^ m % N :=
          (Int.mul_emod _ _ _).symm
        rw [Int.mul_emod x (x ^ m % N * (x ^ m % N)) N, hzz, ← Int.mul_emod, ← hmm]
        congr 1
        ring
        
lemma modexp_modulus_one (x y N : Int) (hy : 0 ≤ y) (hN : N.natAbs = 1) :
    modexp x y N = some 0 := by
  have hyn : ¬ (y < 0) := by omega
  have h1 : max N (-N) = 1 := by omega
  show modexpFuel (y.natAbs + 1) x y N = some 0
  simp only [modexpFuel, if_neg hyn, if_pos h1]

/-! ### Termination lemmas -/

lemma mod_total (t M : Int) : ∃ r, mod t M = some r := by
  by_cases hM : M = 0
  · subst hM; exact ⟨t, mod_zero_eq t⟩
  · obtain ⟨q, r, hdiv, _, _, _, _⟩ := div_char t M hM
    exact ⟨r, by rw [mod, hdiv, Option.map_some']⟩

lemma divnonnegFuel_isSome (x y : Int) (hx : 0 ≤ x) (hy : 0 ≤ y) :
    (divnonnegFuel (x.natAbs + 1) x y).isSome = true := by
  rcases eq_or_lt_of_le hy with h | h
  · show (divnonnegFuel (x.natAbs + 1) x y).isSome = true
    have hno : ¬ (x < 0 ∨ y < 0) := by omega
    simp only [divnonnegFuel, if_neg hno]
    by_cases hx0 : x = 0
    · rw [if_pos hx0]; rfl
    · rw [if_neg hx0, if_pos h.symm]; rfl
  · rw [divnonnegFuel_correct _ x y hx h (Nat.lt_succ_self _)]; rfl

lemma modexpFuel_isSome : ∀ (fuel : Nat) (x y N : Int), 0 ≤ y → y.natAbs < fuel →
    (modexpFuel fuel x y N).isSome = true
  | 0, _, _, _, _, hlt => absurd hlt (Nat.not_lt_zero _)
  | fuel + 1, x, y, N, hy, hlt => by
    have hyn : ¬ (y < 0) := by omega
    by_cases hN1 : max N (-N) = 1
    · simp only [modexpFuel, if_neg hyn, if_pos hN1]; rfl
    · by_cases h0 : y = 0
      · obtain ⟨r, hr⟩ := mod_total 1 N
        subst h0
        simp only [modexpFuel, if_neg hyn, if_neg hN1, if_pos rfl, hr]
        rfl
      · have hh : 0 ≤ halve y := by simp only [halve]; omega
        have hdec : (halve y).natAbs < y.natAbs := by simp only [halve]; omega
        obtain ⟨z, hz⟩ := Option.isSome_iff_exists.mp
          (modexpFuel_isSome fuel x (halve y) N hh (by omega))
        obtain ⟨r1, hr1⟩ := mod_total (z * z) N
        obtain ⟨r2, hr2⟩ := mod_total (x * (z * z)) N
        simp only [modexpFuel, if_neg hyn, if_neg hN1, if_neg h0, hz, Option.bind_eq_bind,
          Option.some_bind, square_eq]
        by_cases he : even y
        · rw [if_pos he, hr1]; rfl
        · rw [if_neg he, mult_eq, Option.some_bind, hr2]; rfl

/-! ### The claims -/

/-- C1 (counterexample): `div(7, -2)` returns `(-4, -1)`: the identity
`x == y*quotient + remainder` holds but the remainder is negative, so
`0 <= remainder < |y|` fails for a negative divisor. -/
theorem div_claim_cex : div 7 (-2) = some (-4, -1) ∧ (7 : Int) = -2 * -4 + -1 ∧
    ¬ (0 ≤ (-1 : Int)) := by
  refine ⟨by decide, by decide, by decide⟩

/-- C1 (amended): for every `x` and nonzero `y`, `div(x, y)` returns `(q, r)`
with `x == y*q + r` and `|r| < |y|`; the remainder is nonnegative when
`y > 0` and nonpositive when `y < 0` (it takes the divisor's sign, Python's
floor-division convention). -/
theorem div_signed (x y : Int) (hy : y ≠ 0) :
    ∃ q r, div x y = some (q, r) ∧ x = y * q + r ∧ r.natAbs < y.natAbs ∧
      (0 < y → 0 ≤ r) ∧ (y < 0 → r ≤ 0) := div_char x y hy

theorem div_signed_witness :
    ∃ q r, div 7 (-2) = some (q, r) ∧ (7 : Int) = -2 * q + r ∧
      r.natAbs < (-2 : Int).natAbs ∧ (0 < (-2 : Int) → 0 ≤ r) ∧
      ((-2 : Int) < 0 → r ≤ 0) :=
  div_signed 7 (-2) (by decide)

/-- C2 (code bug): with the defaults (`k = 100`, `a = None`), `prime(1)`
returns `True`: the capped sample size is `min 100 (1-1) = 0`, so the only
possible random sample is the empty list and `all()` over it is vacuously
`True`, although 1 is definitely not prime. -/
theorem prime_one_vacuous : primeNone 1 [] = some true ∧
    (∀ s : List Int, validSample 1 100 s → s = []) := by
  refine ⟨by decide, fun s hs => ?_⟩
  have hlen := hs.2.2
  norm_num at hlen
  exact hlen

/-- C3 (counterexample): at `a = -2`, `b = 3` the code gives
`lcm(-2, 3) = -6` and `gcd(-2, 3) = 1`, so `mult(lcm, gcd) = -6`, which is
`mult(a, b)` but not `|mult(a, b)| = 6`. -/
theorem lcm_claim_cex : lcm (-2) 3 = some (-6) ∧ gcd (-2) 3 = some 1 ∧
    mult (-6) 1 = some (-6) ∧ mult (-2) 3 = some (-6) ∧
    ((-6 : Int) ≠ ↑((-6 : Int).natAbs)) := by
  refine ⟨by decide, by decide, by decide, by decide, by decide⟩

/-- C3 (amended): for nonzero `a`, `b`, `mult(lcm(a, b), gcd(a, b))` equals
`mult(a, b)` (the signed product; its absolute value is `|mult(a, b)|` but
the product itself carries the sign of `a * b`). -/
theorem lcm_mul_gcd (a b : Int) (ha : a ≠ 0) (hb : b ≠ 0) :
    ∃ l g, lcm a b = some l ∧ gcd a b = some g ∧ mult l g = some (a * b) := by
  have hg := gcd_eq a b
  have hgne : Int.gcd a b ≠ 0 := by
    rw [Ne, Int.gcd_eq_zero_iff]
    tauto
  have hgpos : 0 < (↑(Int.gcd a b) : Int) := by
    exact_mod_cast Nat.pos_of_ne_zero hgne
  have hdvd : (↑(Int.gcd a b) : Int) ∣ a * b := Int.gcd_dvd_left.mul_right b
  refine ⟨a * b / ↑(Int.gcd a b), ↑(Int.gcd a b), ?_, hg, ?_⟩
  · simp only [lcm, mult_eq, Option.bind_eq_bind, Option.some_bind, hg]
    rw [quotient, div_pos_eq _ _ hgpos, Option.map_some']
  · rw [mult_eq, Int.ediv_mul_cancel hdvd]

theorem lcm_mul_gcd_witness :
    ∃ l g, lcm 4 6 = some l ∧ gcd 4 6 = some g ∧ mult l g = some ((4 : Int) * 6) :=
  lcm_mul_gcd 4 6 (by decide) (by decide)

/-- C4: for all `a`, `b` (not both zero; in fact for all `a`, `b`),
`egcd(a, b)` returns `(x, y, d)` with `a*x + b*y == d`, `d == gcd(a, b)`
(the code's own `gcd`), and `d >= 0`. -/
theorem egcd_spec (a b : Int) (h : ¬ (a = 0 ∧ b = 0)) :
    ∃ x y d, egcd a b = some (x, y, d) ∧ a * x + b * y = d ∧
      gcd a b = some d ∧ 0 ≤ d := by
  obtain ⟨x, y, he, hbez⟩ := egcd_eq a b
  exact ⟨x, y, ↑(Int.gcd a b), he, hbez, gcd_eq a b, Int.natCast_nonneg _⟩

theorem egcd_spec_witness :
    ∃ x y d, egcd (-6) 4 = some (x, y, d) ∧ (-6 : Int) * x + 4 * y = d ∧
      gcd (-6) 4 = some d ∧ 0 ≤ d :=
  egcd_spec (-6) 4 (by decide)

/-- C5: when `gcd(a, N) == 1` and `N > 1`, `multinv(a, N)` returns (without
raising) a value `r` in `[0, N)` with `mod(mult(a, r), N) == 1`. -/
theorem multinv_spec (a N : Int) (h1 : gcd a N = some 1) (hN : 1 < N) :
    ∃ r, multinv a N = some r ∧ 0 ≤ r ∧ r < N ∧
      ((mult a r).bind fun p => mod p N) = some 1 := by
  have hNne : N ≠ 0 := by omega
  have hg : (↑(Int.gcd a N) : Int) = 1 := by
    have h2 := gcd_eq a N
    rw [h1] at h2
    exact (Option.some.inj h2).symm
  have ha : a ≠ 0 := by
    rintro rfl
    rw [Int.gcd_zero_left] at hg
    omega
  obtain ⟨x, y, he, hbez⟩ := egcd_eq a N
  rw [hg] at he hbez
  refine ⟨x % N, ?_, Int.emod_nonneg _ hNne, Int.emod_lt_of_pos _ (by omega), ?_⟩
  · simp only [multinv, if_neg ha, if_neg (by omega : ¬ (N ≤ 1)), Option.bind_eq_bind, he,
      Option.some_bind]
    rw [if_neg (show ¬ ((x, y, (1 : Int)).2.2 ≠ 1) by simp)]
    exact mod_pos_eq _ _ (by omega)
  · rw [mult_eq, Option.some_bind, mod_pos_eq _ _ (by omega)]
    refine congrArg some ?_
    rw [Int.mul_emod, Int.emod_emod_of_dvd x (dvd_refl N), ← Int.mul_emod,
      show a * x = 1 + N * (-y) by linear_combination hbez,
      Int.add_mul_emod_self_left]
    exact Int.emod_eq_of_lt (by norm_num) hN

theorem multinv_spec_witness :
    ∃ r, multinv 3 7 = some r ∧ 0 ≤ r ∧ r < 7 ∧
      ((mult 3 r).bind fun p => mod p 7) = some 1 :=
  multinv_spec 3 7 (by decide) (by decide)

/-- C6: for `y >= 0`, `modexp(x, y, N)` is 0 when `|N| == 1`, is the exact
power `x^y` when `N == 0`, and for `N > 1` is the canonical residue of
`x^y` in `[0, N)`. -/
theorem modexp_spec (x y N : Int) (hy : 0 ≤ y) :
    (N.natAbs = 1 → modexp x y N = some 0) ∧
    (N = 0 → modexp x y N = some (x ^ y.toNat)) ∧
    (1 < N → modexp x y N = some (x ^ y.toNat % N) ∧
      0 ≤ x ^ y.toNat % N ∧ x ^ y.toNat % N < N) := by
  refine ⟨fun h => modexp_modulus_one x y N hy h, fun h => ?_, fun h => ?_⟩
  · subst h
    exact modexpFuel_modulus_zero _ x y hy (Nat.lt_succ_self _)
  · exact ⟨modexpFuel_modulus_pos _ x y N hy h (Nat.lt_succ_self _),
      Int.emod_nonneg _ (by omega), Int.emod_lt_of_pos _ (by omega)⟩

theorem modexp_spec_witness :
    ((7 : Int).natAbs = 1 → modexp 2 5 7 = some 0) ∧
    ((7 : Int) = 0 → modexp 2 5 7 = some (2 ^ (5 : Int).toNat)) ∧
    (1 < (7 : Int) → modexp 2 5 7 = some (2 ^ (5 : Int).toNat % 7) ∧
      0 ≤ (2 : Int) ^ (5 : Int).toNat % 7 ∧ (2 : Int) ^ (5 : Int).toNat % 7 < 7) :=
  modexp_spec 2 5 7 (by decide)

/-- C7: `mult(x, y)` is the ordinary integer product for all signs. -/
theorem mult_spec : ∀ x y : Int, mult x y = some (x * y) := fun x y => mult_eq x y

/-- C8: `div(x, 0)` returns `(0, x)` for every `x`, without raising. -/
theorem div_by_zero_spec : ∀ x : Int, div x 0 = some (0, x) := fun x => div_zero_eq x

/-- C9: each recursive operation terminates on its precondition's domain:
with fuel one more than the `natAbs` measure of its recursion argument,
every fuel-indexed recursion returns `some` (the measure strictly
decreases at each recursive call). -/
theorem recursion_terminates :
    (∀ x y : Int, 0 ≤ y → (multposFuel (y.natAbs + 1) x y).isSome = true) ∧
    (∀ x y : Int, 0 ≤ x → 0 ≤ y → (divnonnegFuel (x.natAbs + 1) x y).isSome = true) ∧
    (∀ x y N : Int, 0 ≤ y → (modexpFuel (y.natAbs + 1) x y N).isSome = true) ∧
    (∀ a b : Int, (gcdFuel (b.natAbs + 1) a b).isSome = true) ∧
    (∀ a b : Int, (egcdFuel (b.natAbs + 1) a b).isSome = true) := by
  refine ⟨fun x y hy => ?_, fun x y hx hy => divnonnegFuel_isSome x y hx hy,
    fun x y N hy => modexpFuel_isSome _ x y N hy (Nat.lt_succ_self _),
    fun a b => ?_, fun a b => ?_⟩
  · rw [multposFuel_correct _ x y hy (Nat.lt_succ_self _)]; rfl
  · rw [gcdFuel_correct _ a b (Nat.lt_succ_self _)]; rfl
  · obtain ⟨x, y, he, _⟩ := egcdFuel_correct (b.natAbs + 1) a b (Nat.lt_succ_self _)
    rw [he]; rfl

/-- C10: an explicit witness collection is filtered only by `witness < N`,
so the out-of-range witness 0 is tested; `prime(N, a=[0])` is `False` for
every `N >= 1`, prime or not (the Fermat test at 0 computes
`modexp(0, N-1, N)`, which is never 1). -/
theorem prime_witness_zero (N : Int) (hN : 1 ≤ N) : prime N [0] = some false := by
  by_cases h1 : N = 1
  · subst h1; decide
  · have hN2 : 1 < N := by omega
    have hne : ¬ (N ≤ 0) := by omega
    have hmx : modexp 0 (N - 1) N = some 0 := by
      show modexpFuel ((N - 1).natAbs + 1) 0 (N - 1) N = some 0
      rw [modexpFuel_modulus_pos _ 0 (N - 1) N (by omega) hN2 (Nat.lt_succ_self _)]
      rw [zero_pow (by omega : (N - 1).toNat ≠ 0), Int.zero_emod]
    have hft : fermat_test N 0 = some false := by
      rw [fermat_test, hmx, Option.map_some']
      norm_num
    have hfil : ([0] : List Int).filter (fun ai => decide (ai < N)) = [0] := by
      simp [List.filter, show (0 : Int) < N by omega]
    simp only [prime, if_neg hne, hfil]
    simp [allTests, hft]

theorem prime_witness_zero_witness : prime 7 [0] = some false :=
  prime_witness_zero 7 (by decide)

end Arith
